import Mathlib

/-!
Verification development for the AGV fleet-coordination repository.

The repository ships the external client (`src/frontend/src/App.tsx`) and a
task README; the backend core (GraphIndex, PathFinder, Scheduler, TickEngine,
StateStore) is specified in the design document but its code is not part of
the source tree.  Definitions below that embed the missing core are marked
`Modelled from the spec:` and follow the specification text; definitions for
the client are translated directly from `App.tsx`.

Numeric edge weights ("positive real" in the spec, `number` on the wire) are
embedded as rationals `ℚ` so that the pathfinder is executable; the layout
geometry of the client uses `ℝ` because it is about the mathematical circle.
-/

namespace AGV

/-- Modelled from the spec: robot status enumeration `IDLE | EXECUTING`. -/
inductive RobotStatus where
  | IDLE
  | EXECUTING
deriving DecidableEq

/-- Modelled from the spec: order status enumeration
`NEW | IN_PROGRESS | DONE | FAILED`. -/
inductive OrderStatus where
  | NEW
  | IN_PROGRESS
  | DONE
  | FAILED
deriving DecidableEq

/-- Modelled from the spec: an edge `(from, to, weight)`; bidirectional, one
undirected relation.  `from` is a Lean keyword, so the fields are named
`fromNode`/`toNode`. -/
structure GEdge where
  fromNode : String
  toNode : String
  weight : ℚ
deriving DecidableEq

/-- Modelled from the spec: immutable weighted graph built from a node list
and an edge list. -/
structure GraphIndex where
  nodes : List String
  edges : List GEdge
deriving DecidableEq

/-- Modelled from the spec: `hasNode(id) -> bool`. -/
def hasNode (g : GraphIndex) (id : String) : Bool :=
  g.nodes.contains id

/-- Lexicographic strict comparison of identifiers, computed on the
underlying character lists (definitionally the same order as `String`'s
`<`). -/
def nameLt (a b : String) : Bool :=
  decide (a.data < b.data)

/-- Lexicographic non-strict comparison of identifiers, computed on the
underlying character lists. -/
def nameLe (a b : String) : Bool :=
  decide (a.data ≤ b.data)

theorem nameLt_iff (a b : String) : nameLt a b = true ↔ a < b := by
  simp only [nameLt, decide_eq_true_eq]
  exact String.lt_iff_toList_lt.symm

theorem nameLe_iff (a b : String) : nameLe a b = true ↔ a ≤ b := by
  simp only [nameLe, decide_eq_true_eq]
  exact String.le_iff_toList_le.symm

/-- Modelled from the spec: `neighbors(id)` — the adjacent `(neighborId,
weight)` pairs, both edge directions (bidirectional edges), ordered by
neighbor id ascending for deterministic traversal. -/
def neighbors (g : GraphIndex) (id : String) : List (String × ℚ) :=
  let out := g.edges.filterMap fun e =>
    if e.fromNode = id then some (e.toNode, e.weight) else none
  let inn := g.edges.filterMap fun e =>
    if e.toNode = id then some (e.fromNode, e.weight) else none
  List.insertionSort (fun a b : String × ℚ => nameLe a.1 b.1 = true)
    (out ++ inn)

/-- Modelled from the spec: pathfinding failure `NodeNotFound` (unknown
endpoint). -/
inductive PathErr where
  | nodeNotFound
deriving DecidableEq

/-- Modelled from the spec: outcome of `shortestPath` — either a distance and
an ordered node path, or `Unreachable` (a normal outcome, not a fault). -/
inductive PathOutcome where
  | found (dist : ℚ) (path : List String)
  | unreachable
deriving DecidableEq

/-- Association-list lookup keyed by `String`, used for the tentative
distance map and the predecessor map of Dijkstra. -/
def assocLookup {α : Type} (l : List (String × α)) (k : String) : Option α :=
  (l.find? fun e => e.1 = k).map (fun e => e.2)

/-- Association-list update (replace any existing binding of the key). -/
def assocSet {α : Type} (l : List (String × α)) (k : String) (v : α) :
    List (String × α) :=
  (k, v) :: l.filter fun e => ¬ e.1 = k

/-- Priority order of the Dijkstra frontier: keyed by `(distance, nodeId)`,
so distance ties expand the lexicographically smaller node id first. -/
def frontLt (a b : ℚ × String) : Bool :=
  a.1 < b.1 || (a.1 = b.1 && a.2 < b.2)

/-- Minimum entry of the frontier under `frontLt` (the priority-queue pop). -/
def minEntry (l : List (ℚ × String)) : Option (ℚ × String) :=
  l.foldl
    (fun acc x =>
      match acc with
      | none => some x
      | some m => if frontLt x m then some x else some m)
    none

/-- Follow predecessor links from a node back to the source, accumulating the
path; fuel bounds the walk. -/
def reconstructPath : ℕ → List (String × String) → String → List String →
    List String
  | 0, _, n, acc => n :: acc
  | fuel + 1, prev, n, acc =>
    match assocLookup prev n with
    | none => n :: acc
    | some p => reconstructPath fuel prev p (n :: acc)

/-- Modelled from the spec: the Dijkstra main loop.  Pops the `(distance,
nodeId)`-minimal frontier entry; on popping the target returns the distance
and the reconstructed path; otherwise relaxes the popped node's neighbors.
`none` means the target was never reached. -/
def dijkstraLoop (g : GraphIndex) (target : String) :
    ℕ → List (ℚ × String) → List (String × ℚ) → List (String × String) →
    List String → Option (ℚ × List String)
  | 0, _, _, _, _ => none
  | fuel + 1, frontier, dist, prev, visited =>
    match minEntry frontier with
    | none => none
    | some m =>
      if visited.contains m.2 then
        dijkstraLoop g target fuel (frontier.erase m) dist prev visited
      else if m.2 = target then
        some (m.1, reconstructPath (prev.length + 1) prev m.2 [])
      else
        let st :=
          (neighbors g m.2).foldl
            (fun (acc : List (ℚ × String) × List (String × ℚ) ×
                List (String × String)) nb =>
              let nd := m.1 + nb.2
              match assocLookup acc.2.1 nb.1 with
              | some old =>
                if nd < old then
                  ((nd, nb.1) :: acc.1, assocSet acc.2.1 nb.1 nd,
                    assocSet acc.2.2 nb.1 m.2)
                else acc
              | none =>
                ((nd, nb.1) :: acc.1, assocSet acc.2.1 nb.1 nd,
                  assocSet acc.2.2 nb.1 m.2))
            (frontier.erase m, dist, prev)
        dijkstraLoop g target fuel st.1 st.2.1 st.2.2 (m.2 :: visited)

/-- Fuel sufficient for the Dijkstra loop: every pop consumes a frontier
entry, and at most `1 + 2·|E|` entries are ever inserted (one per direction
of each edge relaxation plus the source). -/
def dijkstraFuel (g : GraphIndex) : ℕ :=
  g.nodes.length + 2 * g.edges.length + 2

/-- Modelled from the spec: `shortestPath(source, target)` — fails with
`NodeNotFound` on an unknown endpoint, otherwise runs Dijkstra from the
source and yields `found dist path` or `unreachable`. -/
def shortestPath (g : GraphIndex) (source target : String) :
    Except PathErr PathOutcome :=
  if hasNode g source && hasNode g target then
    match dijkstraLoop g target (dijkstraFuel g) [(0, source)] [(source, 0)]
        [] [] with
    | some (d, p) => .ok (.found d p)
    | none => .ok .unreachable
  else .error .nodeNotFound

theorem reconstructPath_ne_nil :
    ∀ (fuel : ℕ) (prev : List (String × String)) (n : String)
      (acc : List String), reconstructPath fuel prev n acc ≠ [] := by
  intro fuel
  induction fuel with
  | zero => intro prev n acc; simp [reconstructPath]
  | succ k ih =>
    intro prev n acc
    simp only [reconstructPath]
    cases assocLookup prev n with
    | none => simp
    | some p => exact ih prev p (n :: acc)

theorem dijkstraLoop_found_ne_nil :
    ∀ (fuel : ℕ) (g : GraphIndex) (target : String)
      (frontier : List (ℚ × String)) (dist : List (String × ℚ))
      (prev : List (String × String)) (visited : List String)
      (d : ℚ) (p : List String),
      dijkstraLoop g target fuel frontier dist prev visited = some (d, p) →
      p ≠ [] := by
  intro fuel
  induction fuel with
  | zero => intro g t fr ds pv vis d p h; simp [dijkstraLoop] at h
  | succ k ih =>
    intro g t fr ds pv vis d p h
    simp only [dijkstraLoop] at h
    cases hm : minEntry fr with
    | none => rw [hm] at h; exact absurd h (by simp)
    | some m =>
      rw [hm] at h
      simp only at h
      by_cases hv : vis.contains m.2
      · rw [if_pos hv] at h
        exact ih g t _ ds pv vis d p h
      · rw [if_neg hv] at h
        by_cases ht : m.2 = t
        · rw [if_pos ht] at h
          simp only [Option.some.injEq, Prod.mk.injEq] at h
          rw [← h.2]
          exact reconstructPath_ne_nil _ pv m.2 []
        · rw [if_neg ht] at h
          exact ih g t _ _ _ _ d p h

theorem shortestPath_found_ne_nil {g : GraphIndex} {a b : String} {d : ℚ}
    {p : List String} (h : shortestPath g a b = .ok (.found d p)) :
    p ≠ [] := by
  unfold shortestPath at h
  by_cases hc : hasNode g a && hasNode g b
  · rw [if_pos hc] at h
    cases hd : dijkstraLoop g b (dijkstraFuel g) [(0, a)] [(a, 0)] [] [] with
    | none => rw [hd] at h; simp at h
    | some dp =>
      rw [hd] at h
      simp only [Except.ok.injEq] at h
      obtain ⟨d', p'⟩ := dp
      cases h
      exact dijkstraLoop_found_ne_nil _ g b _ _ _ _ d' p' hd
  · rw [if_neg hc] at h
    simp at h

/-- `C3`: for every node id `n` present in the loaded `GraphIndex`,
`shortestPath n n` returns distance `0` with the single-node path `[n]`;
and whenever either endpoint is unknown, `shortestPath` fails with
`NodeNotFound` rather than yielding `Unreachable`. -/
theorem claim_C3 (g : GraphIndex) :
    (∀ n : String, hasNode g n = true →
      shortestPath g n n = .ok (.found 0 [n])) ∧
    (∀ s t : String, (hasNode g s = false ∨ hasNode g t = false) →
      shortestPath g s t = .error .nodeNotFound) := by
  constructor
  · intro n hn
    unfold shortestPath
    rw [if_pos (by simp [hn])]
    have hfuel : dijkstraFuel g = (g.nodes.length + 2 * g.edges.length + 1) + 1 := rfl
    rw [hfuel]
    simp only [dijkstraLoop, minEntry, List.foldl, frontLt]
    norm_num [reconstructPath, assocLookup]
  · intro s t h
    unfold shortestPath
    have hc : (hasNode g s && hasNode g t) = false := by
      rcases h with h | h <;> simp [h]
    rw [hc]
    simp

/-- Concrete instantiation of `claim_C3`: a two-node graph where the
self-path at `A` is `(0, [A])` and the unknown endpoint `X` is rejected. -/
theorem claim_C3_witness :
    (hasNode ⟨["A", "B"], [⟨"A", "B", 1⟩]⟩ "A" = true ∧
      shortestPath ⟨["A", "B"], [⟨"A", "B", 1⟩]⟩ "A" "A" =
        .ok (.found 0 ["A"])) ∧
    (hasNode ⟨["A", "B"], [⟨"A", "B", 1⟩]⟩ "X" = false ∧
      shortestPath ⟨["A", "B"], [⟨"A", "B", 1⟩]⟩ "A" "X" =
        .error .nodeNotFound) :=
  ⟨⟨by decide, (claim_C3 ⟨["A", "B"], [⟨"A", "B", 1⟩]⟩).1 "A" (by decide)⟩,
   ⟨by decide, (claim_C3 ⟨["A", "B"], [⟨"A", "B", 1⟩]⟩).2 "A" "X"
      (Or.inr (by decide))⟩⟩

/-- Modelled from the spec: a Robot entity.  `assignedOrder` holds the name
of the assigned order (references are by unique name). -/
structure Robot where
  name : String
  status : RobotStatus
  node : String
  route : List String
  routeCursor : ℕ
  assignedOrder : Option String
deriving DecidableEq

/-- Modelled from the spec: an Order entity.  `assignedRobot` holds the name
of the assigned robot. -/
structure Order where
  name : String
  source : String
  target : String
  status : OrderStatus
  assignedRobot : Option String
deriving DecidableEq

/-- Modelled from the spec: the single state aggregate `{graph, robots,
orders}` (also the `Snapshot` of the StateStore boundary). -/
structure State where
  graph : GraphIndex
  robots : List Robot
  orders : List Order
deriving DecidableEq

/-- Look a robot up by name. -/
def getRobot (s : State) (n : String) : Option Robot :=
  s.robots.find? fun r => r.name = n

/-- Look an order up by name. -/
def getOrder (s : State) (n : String) : Option Order :=
  s.orders.find? fun o => o.name = n

/-- Modelled from the spec: `loadGraph` initializes the state with a graph
and empty registries. -/
def initState (g : GraphIndex) : State :=
  { graph := g, robots := [], orders := [] }

/-- Modelled from the spec: `addRobot(name, node)` — validated creation: the
node must exist in the graph and the name must be fresh; a robot is created
`IDLE` with an empty route and no assigned order.  On validation failure the
state is left unmodified. -/
def addRobot (s : State) (name node : String) : State :=
  if hasNode s.graph node && !(s.robots.any fun r => r.name = name) then
    { s with
      robots := s.robots ++
        [{ name := name, status := .IDLE, node := node, route := [],
           routeCursor := 0, assignedOrder := none }] }
  else s

/-- Modelled from the spec: `addOrder(name, source, target)` — validated
creation: both nodes must exist and the name must be fresh; the order is
created `NEW` and unassigned.  On validation failure the state is left
unmodified. -/
def addOrder (s : State) (name source target : String) : State :=
  if hasNode s.graph source && hasNode s.graph target &&
      !(s.orders.any fun o => o.name = name) then
    { s with
      orders := s.orders ++
        [{ name := name, source := source, target := target, status := .NEW,
           assignedRobot := none }] }
  else s

/-- Scheduler candidates for an order: each currently `IDLE` robot whose
shortest-path distance to the order's source is finite (`found`), paired
with that distance; `Unreachable` and failed computations are excluded. -/
def candidateList (s : State) (o : Order) : List (String × ℚ) :=
  s.robots.filterMap fun r =>
    if r.status = RobotStatus.IDLE then
      match shortestPath s.graph r.node o.source with
      | .ok (.found d _) => some (r.name, d)
      | _ => none
    else none

/-- Strict preference between scheduler candidates `(name, distance)`:
smaller distance first, then lexicographically smaller name. -/
def betterCand (a b : String × ℚ) : Bool :=
  a.2 < b.2 || (a.2 = b.2 && nameLt a.1 b.1)

/-- Reflexive preference order on candidates: smaller distance, ties broken
by ascending robot name. -/
def candLE (a b : String × ℚ) : Prop :=
  a.2 < b.2 ∨ (a.2 = b.2 ∧ a.1 ≤ b.1)

/-- Pick the most preferred candidate (minimum distance, ties by ascending
name); `none` when there is no candidate. -/
def pickBest : List (String × ℚ) → Option (String × ℚ)
  | [] => none
  | c :: cs =>
    some (cs.foldl (fun best x => if betterCand x best then x else best) c)

/-- Modelled from the spec: the scheduler's deterministic selection — the
winning `(robotName, distance)` among the candidates for the order. -/
def selectRobot (s : State) (o : Order) : Option (String × ℚ) :=
  pickBest (candidateList s o)

/-- Modelled from the spec: full route — the path to the order's source
concatenated with the path from source to target, the shared junction node
appearing once. -/
def buildRoute (p1 p2 : List String) : List String :=
  p1 ++ p2.drop 1

/-- Modelled from the spec: `assignNearestIdleRobot(order)` — the order must
be `NEW`; selects the nearest idle robot (ties by name); on success
atomically flips `order` to `IN_PROGRESS`/`robot` to `EXECUTING`, stores the
planned route with `routeCursor = 0`, and links the two by name.  With no
eligible robot the state is unchanged (the order stays `NEW`). -/
def assignNearestIdleRobot (s : State) (oname : String) : State :=
  match s.orders.find? fun o => o.name = oname with
  | none => s
  | some o =>
    if o.status = OrderStatus.NEW then
      match selectRobot s o with
      | none => s
      | some b =>
        match s.robots.find? fun r => r.name = b.1 with
        | none => s
        | some r =>
          match shortestPath s.graph r.node o.source,
              shortestPath s.graph o.source o.target with
          | .ok (.found _ p1), .ok (.found _ p2) =>
            { s with
              robots := s.robots.map fun x =>
                if x.name = b.1 then
                  { x with
                    status := .EXECUTING
                    route := buildRoute p1 p2
                    routeCursor := 0
                    assignedOrder := some oname }
                else x,
              orders := s.orders.map fun x =>
                if x.name = oname then
                  { x with
                    status := .IN_PROGRESS
                    assignedRobot := some b.1 }
                else x }
          | _, _ => s
    else s

theorem candLE_refl (a : String × ℚ) : candLE a a := by
  right; exact ⟨rfl, le_refl _⟩

theorem candLE_trans {a b c : String × ℚ} (h1 : candLE a b) (h2 : candLE b c) :
    candLE a c := by
  rcases h1 with h1 | ⟨h1, h1'⟩ <;> rcases h2 with h2 | ⟨h2, h2'⟩
  · exact Or.inl (lt_trans h1 h2)
  · exact Or.inl (lt_of_lt_of_eq h1 h2)
  · exact Or.inl (lt_of_eq_of_lt h1 h2)
  · exact Or.inr ⟨h1.trans h2, h1'.trans h2'⟩

theorem betterCand_true {a b : String × ℚ} (h : betterCand a b = true) :
    candLE a b := by
  simp only [betterCand, Bool.or_eq_true, Bool.and_eq_true, decide_eq_true_eq,
    nameLt_iff] at h
  rcases h with h | ⟨h, h'⟩
  · exact Or.inl h
  · exact Or.inr ⟨h, le_of_lt h'⟩

theorem betterCand_false {a b : String × ℚ} (h : betterCand a b = false) :
    candLE b a := by
  simp only [betterCand, Bool.or_eq_false_iff, Bool.and_eq_false_iff,
    decide_eq_false_iff_not] at h
  obtain ⟨h1, h2⟩ := h
  rcases lt_trichotomy b.2 a.2 with hlt | heq | hgt
  · exact Or.inl hlt
  · refine Or.inr ⟨heq, ?_⟩
    rcases h2 with h2 | h2
    · exact absurd heq.symm h2
    · refine le_of_not_lt fun hab => ?_
      rw [(nameLt_iff a.1 b.1).mpr hab] at h2
      exact absurd h2 (by simp)
  · exact absurd hgt h1

theorem pickBest_foldl (cs : List (String × ℚ)) :
    ∀ c : String × ℚ,
      (cs.foldl (fun best x => if betterCand x best then x else best) c = c ∨
        cs.foldl (fun best x => if betterCand x best then x else best) c ∈ cs) ∧
      candLE (cs.foldl (fun best x => if betterCand x best then x else best) c) c ∧
      ∀ y ∈ cs,
        candLE (cs.foldl (fun best x => if betterCand x best then x else best) c) y := by
  induction cs with
  | nil => intro c; exact ⟨Or.inl rfl, candLE_refl c, by simp⟩
  | cons x cs ih =>
    intro c
    simp only [List.foldl_cons]
    obtain ⟨hmem, hle, hall⟩ := ih (if betterCand x c then x else c)
    by_cases hbc : betterCand x c = true
    · rw [if_pos hbc] at hmem hle hall ⊢
      refine ⟨?_, ?_, ?_⟩
      · rcases hmem with h | h
        · exact Or.inr (by rw [h]; exact List.mem_cons_self x cs)
        · exact Or.inr (List.mem_cons_of_mem x h)
      · exact candLE_trans hle (betterCand_true hbc)
      · intro y hy
        rcases List.mem_cons.mp hy with hy | hy
        · exact hy ▸ hle
        · exact hall y hy
    · rw [if_neg hbc] at hmem hle hall ⊢
      refine ⟨?_, hle, ?_⟩
      · rcases hmem with h | h
        · exact Or.inl h
        · exact Or.inr (List.mem_cons_of_mem x h)
      · intro y hy
        rcases List.mem_cons.mp hy with hy | hy
        · exact hy ▸ candLE_trans hle
            (betterCand_false (Bool.eq_false_iff.mpr hbc))
        · exact hall y hy

theorem pickBest_spec {l : List (String × ℚ)} {b : String × ℚ}
    (h : pickBest l = some b) : b ∈ l ∧ ∀ y ∈ l, candLE b y := by
  cases l with
  | nil => simp [pickBest] at h
  | cons c cs =>
    simp only [pickBest, Option.some.injEq] at h
    obtain ⟨hmem, hle, hall⟩ := pickBest_foldl cs c
    subst h
    constructor
    · rcases hmem with h | h
      · rw [h]; exact List.mem_cons_self c cs
      · exact List.mem_cons_of_mem c h
    · intro y hy
      rcases List.mem_cons.mp hy with hy | hy
      · exact hy ▸ hle
      · exact hall y hy

theorem pickBest_none {l : List (String × ℚ)} (h : pickBest l = none) :
    l = [] := by
  cases l with
  | nil => rfl
  | cons c cs => simp [pickBest] at h

theorem mem_candidateList {s : State} {o : Order} {b : String × ℚ}
    (h : b ∈ candidateList s o) :
    ∃ r ∈ s.robots, r.status = RobotStatus.IDLE ∧ b.1 = r.name ∧
      ∃ p, shortestPath s.graph r.node o.source = .ok (.found b.2 p) := by
  simp only [candidateList, List.mem_filterMap] at h
  obtain ⟨r, hr, hfr⟩ := h
  by_cases hst : r.status = RobotStatus.IDLE
  · rw [if_pos hst] at hfr
    cases hsp : shortestPath s.graph r.node o.source with
    | error e => rw [hsp] at hfr; simp at hfr
    | ok out =>
      cases out with
      | unreachable => rw [hsp] at hfr; simp at hfr
      | found d p =>
        rw [hsp] at hfr
        simp only [Option.some.injEq] at hfr
        exact ⟨r, hr, hst, by rw [← hfr], p, by rw [← hfr]; exact hsp⟩
  · rw [if_neg hst] at hfr; simp at hfr

/-- `C4`: for every order in status `NEW`, the scheduler selects among the
`IDLE` robots with a finite shortest-path distance to the order's source the
one with minimum distance, ties on distance broken by lexicographically
smallest robot name; and the winner is a deterministic function of the
state (`selectRobot`, the selection used by `assignNearestIdleRobot`, is a
pure function, so equal states always produce the same winner). -/
theorem claim_C4 (s : State) (o : Order) (ho : o ∈ s.orders)
    (hnew : o.status = OrderStatus.NEW) (b : String × ℚ)
    (hb : selectRobot s o = some b) :
    (∃ r ∈ s.robots, r.status = RobotStatus.IDLE ∧ b.1 = r.name ∧
      ∃ p, shortestPath s.graph r.node o.source = .ok (.found b.2 p)) ∧
    (∀ y ∈ candidateList s o,
      b.2 < y.2 ∨ (b.2 = y.2 ∧ b.1 ≤ y.1)) ∧
    (∀ s' o', s' = s → o' = o → selectRobot s' o' = some b) := by
  obtain ⟨hmem, hall⟩ := pickBest_spec hb
  refine ⟨mem_candidateList hmem, fun y hy => hall y hy, ?_⟩
  intro s' o' hs ho'
  rw [hs, ho', hb]

/-- Concrete instantiation of `claim_C4`: two idle robots `R1`, `R2` both
already at the order source `C` (equidistant, distance `0`); the scheduler
picks the lexicographically smaller name `R1`. -/
theorem claim_C4_witness :
    (let g : GraphIndex := ⟨["A", "B", "C"], [⟨"A", "C", 1⟩, ⟨"B", "C", 1⟩]⟩
     let o : Order := ⟨"O1", "C", "A", .NEW, none⟩
     let s : State := ⟨g,
       [⟨"R1", .IDLE, "C", [], 0, none⟩, ⟨"R2", .IDLE, "C", [], 0, none⟩],
       [o]⟩
     (∃ r ∈ s.robots, r.status = RobotStatus.IDLE ∧ "R1" = r.name ∧
       ∃ p, shortestPath s.graph r.node o.source = .ok (.found 0 p)) ∧
     (∀ y ∈ candidateList s o,
       (0 : ℚ) < y.2 ∨ ((0 : ℚ) = y.2 ∧ "R1" ≤ y.1)) ∧
     (∀ s' o', s' = s → o' = o → selectRobot s' o' = some ("R1", 0))) :=
  claim_C4 _ _ (by decide) (by decide) ("R1", 0) (by decide)

/-- Modelled from the spec: the robot record after completing its order on
arrival — `IDLE`, route and cursor and assignment cleared, standing at the
arrival node. -/
def doneOf (r : Robot) (nxt : String) : Robot :=
  { r with
    node := nxt
    status := .IDLE
    route := []
    routeCursor := 0
    assignedOrder := none }

/-- Modelled from the spec: the robot record after advancing one edge —
moved to the next route node, cursor incremented. -/
def movedOf (r : Robot) (nxt : String) : Robot :=
  { r with
    node := nxt
    routeCursor := r.routeCursor + 1 }

/-- Modelled from the spec: the order record after completion — `DONE`,
assignment cleared. -/
def completeOrder (o : Order) : Order :=
  { o with
    status := .DONE
    assignedRobot := none }

/-- Modelled from the spec: advance the robot named `m` one step of the tick
— move to the next node in `route` after `routeCursor`, incrementing the
cursor; if the new node equals the route's final node, complete the
assigned order and free the robot.  A robot that is absent, not
`EXECUTING`, or has no next route node (an invariant-violation defect per
the spec) leaves the state unchanged. -/
def advanceRobot (s : State) (m : String) : State :=
  match s.robots.find? fun r => r.name = m with
  | none => s
  | some r =>
    if r.status = RobotStatus.EXECUTING then
      match r.route.get? (r.routeCursor + 1) with
      | none => s
      | some nxt =>
        if r.route.getLast? = some nxt then
          { s with
            robots := s.robots.map fun x =>
              if x.name = m then doneOf r nxt else x
            orders := s.orders.map fun o =>
              if r.assignedOrder = some o.name then completeOrder o else o }
        else
          { s with
            robots := s.robots.map fun x =>
              if x.name = m then movedOf r nxt else x }
    else s

/-- The names of the robots `EXECUTING` at the start of the tick (the
snapshot the tick iterates over). -/
def execNames (s : State) : List String :=
  (s.robots.filter fun r => r.status = RobotStatus.EXECUTING).map Robot.name

/-- The tick's processing order: the snapshot of executing robots in
ascending-name order. -/
def sortedExecNames (s : State) : List String :=
  List.insertionSort (fun a b => nameLe a b = true) (execNames s)

/-- Modelled from the spec: `tick()` — snapshots the currently `EXECUTING`
robots and advances each of them one step, in ascending-name order. -/
def tick (s : State) : State :=
  (sortedExecNames s).foldl advanceRobot s

theorem find?_map_keyed {α : Type} (key : α → String) (l : List α)
    (g : α → α) (hg : ∀ x, key (g x) = key x) (n : String) :
    (l.map g).find? (fun x => key x = n) =
      (l.find? fun x => key x = n).map g := by
  induction l with
  | nil => rfl
  | cons a t ih =>
    simp only [List.map_cons]
    by_cases h : key a = n
    · rw [List.find?_cons_of_pos _ (by simp [hg, h]),
        List.find?_cons_of_pos _ (by simp [h])]
      rfl
    · rw [List.find?_cons_of_neg _ (by simp [hg, h]),
        List.find?_cons_of_neg _ (by simp [h])]
      exact ih

theorem find?_name_of_mem_nodup {l : List Robot}
    (hnd : (l.map Robot.name).Nodup) {r : Robot} (h : r ∈ l) :
    l.find? (fun x => x.name = r.name) = some r := by
  induction l with
  | nil => cases h
  | cons a t ih =>
    simp only [List.map_cons, List.nodup_cons] at hnd
    rcases List.mem_cons.mp h with h | h
    · subst h
      exact List.find?_cons_of_pos _ (by simp)
    · have hne : ¬ a.name = r.name := fun he =>
        hnd.1 (he ▸ List.mem_map_of_mem Robot.name h)
      rw [List.find?_cons_of_neg _ (by simp [hne])]
      exact ih hnd.2 h

theorem find?_name_update_ne (l : List Robot) (m n : String) (R : Robot)
    (hR : R.name = m) (hnm : ¬ n = m) :
    ((l.map fun x => if x.name = m then R else x).find?
      (fun r => r.name = n)) = l.find? (fun r => r.name = n) := by
  rw [find?_map_keyed Robot.name _ _
    (fun x => by by_cases hx : x.name = m <;> simp [hx, hR])]
  cases hf : l.find? (fun r => r.name = n) with
  | none => rfl
  | some x =>
    have hx : x.name = n := by simpa using List.find?_some hf
    have hxm : ¬ x.name = m := fun h => hnm (hx.symm.trans h)
    simp [hxm]

theorem getRobot_advanceRobot_ne (s : State) (m n : String) (hnm : ¬ n = m) :
    getRobot (advanceRobot s m) n = getRobot s n := by
  unfold advanceRobot
  cases hf : s.robots.find? (fun r => r.name = m) with
  | none => rfl
  | some r =>
    have hrm : r.name = m := by simpa using List.find?_some hf
    dsimp only
    by_cases hst : r.status = RobotStatus.EXECUTING
    · rw [if_pos hst]
      cases hg : r.route.get? (r.routeCursor + 1) with
      | none => rfl
      | some nxt =>
        dsimp only
        by_cases harr : r.route.getLast? = some nxt
        · rw [if_pos harr]
          exact find?_name_update_ne s.robots m n (doneOf r nxt) hrm hnm
        · rw [if_neg harr]
          exact find?_name_update_ne s.robots m n (movedOf r nxt) hrm hnm
    · rw [if_neg hst]

theorem find?_order_update_of_ne (l : List Order) (f : Order → Order)
    (c : Order → Prop) [DecidablePred c] (hf : ∀ o, (f o).name = o.name)
    (k : String) (hc : ∀ o, o.name = k → ¬ c o) :
    ((l.map fun o => if c o then f o else o).find? (fun o => o.name = k)) =
      l.find? (fun o => o.name = k) := by
  rw [find?_map_keyed Order.name _ _
    (fun o => by by_cases ho : c o <;> simp [ho, hf])]
  cases hl : l.find? (fun o => o.name = k) with
  | none => rfl
  | some o =>
    have ho : o.name = k := by simpa using List.find?_some hl
    simp [hc o ho]

/-- Only the robot named `n` may hold the order named `k` (the spec's "at
most one Robot may hold `assignedOrder == this order`" instance for `k`). -/
def HoldsOnly (s : State) (k : String) (n : String) : Prop :=
  ∀ x ∈ s.robots, x.assignedOrder = some k → x.name = n

theorem find?_name_update_self (l : List Robot) (n : String) (r R : Robot)
    (hf : l.find? (fun x => x.name = n) = some r) (hR : R.name = r.name) :
    ((l.map fun x => if x.name = n then R else x).find?
      (fun x => x.name = n)) = some R := by
  have hrn : r.name = n := by simpa using List.find?_some hf
  rw [find?_map_keyed Robot.name _ _
    (fun x => by by_cases hx : x.name = n <;> simp [hx, hR, hrn]), hf]
  simp [hrn]

theorem holdsOnly_advanceRobot {s : State} {k n : String}
    (h : HoldsOnly s k n) (m : String) : HoldsOnly (advanceRobot s m) k n := by
  unfold advanceRobot
  cases hf : s.robots.find? (fun r => r.name = m) with
  | none => exact h
  | some r =>
    have hrmem : r ∈ s.robots := List.mem_of_find?_eq_some hf
    dsimp only
    by_cases hst : r.status = RobotStatus.EXECUTING
    · rw [if_pos hst]
      cases hg : r.route.get? (r.routeCursor + 1) with
      | none => exact h
      | some nxt =>
        dsimp only
        have key : ∀ (R : Robot), R.name = r.name →
            (R.assignedOrder = r.assignedOrder ∨ R.assignedOrder = none) →
            ∀ x' ∈ s.robots.map (fun x => if x.name = m then R else x),
              x'.assignedOrder = some k → x'.name = n := by
          intro R hRn hRa x' hx' hk
          obtain ⟨x, hx, hgx⟩ := List.mem_map.mp hx'
          by_cases hxm : x.name = m
          · rw [if_pos hxm] at hgx
            subst hgx
            rcases hRa with he | he
            · rw [hRn]
              exact h r hrmem (he ▸ hk)
            · rw [he] at hk; cases hk
          · rw [if_neg hxm] at hgx
            subst hgx
            exact h x hx hk
        by_cases harr : r.route.getLast? = some nxt
        · rw [if_pos harr]
          exact key (doneOf r nxt) rfl (Or.inr rfl)
        · rw [if_neg harr]
          exact key (movedOf r nxt) rfl (Or.inl rfl)
    · rw [if_neg hst]
      exact h

theorem getOrder_advanceRobot_of_not_holder (s : State) (m k : String)
    (h : ∀ r, getRobot s m = some r → ¬ r.assignedOrder = some k) :
    getOrder (advanceRobot s m) k = getOrder s k := by
  unfold advanceRobot
  cases hf : s.robots.find? (fun r => r.name = m) with
  | none => rfl
  | some r =>
    dsimp only
    by_cases hst : r.status = RobotStatus.EXECUTING
    · rw [if_pos hst]
      cases hg : r.route.get? (r.routeCursor + 1) with
      | none => rfl
      | some nxt =>
        dsimp only
        by_cases harr : r.route.getLast? = some nxt
        · rw [if_pos harr]
          unfold getOrder
          dsimp only
          exact find?_order_update_of_ne s.orders completeOrder
            (fun o => r.assignedOrder = some o.name) (fun o => rfl) k
            (fun o ho hc => h r hf (ho ▸ hc))
        · rw [if_neg harr]
          rfl
    · rw [if_neg hst]

theorem foldl_advanceRobot_frame (ns : List String) :
    ∀ (t : State) (rn k : String) (rv : Robot) (ov : Order),
      (∀ m ∈ ns, ¬ rn = m) →
      getRobot t rn = some rv → getOrder t k = some ov → HoldsOnly t k rn →
      getRobot (ns.foldl advanceRobot t) rn = some rv ∧
      getOrder (ns.foldl advanceRobot t) k = some ov ∧
      HoldsOnly (ns.foldl advanceRobot t) k rn := by
  induction ns with
  | nil => intro t rn k rv ov _ h1 h2 h3; exact ⟨h1, h2, h3⟩
  | cons m ns ih =>
    intro t rn k rv ov hns h1 h2 h3
    have hne : ¬ rn = m := hns m (List.mem_cons_self m ns)
    simp only [List.foldl_cons]
    refine ih (advanceRobot t m) rn k rv ov
      (fun m' hm' => hns m' (List.mem_cons_of_mem m hm')) ?_ ?_ ?_
    · rw [getRobot_advanceRobot_ne t m rn hne]; exact h1
    · rw [getOrder_advanceRobot_of_not_holder t m k]
      · exact h2
      · intro r hr hk
        have hrm : r.name = m := by simpa using List.find?_some hr
        exact hne ((h3 r (List.mem_of_find?_eq_some hr) hk).symm.trans hrm)
    · exact holdsOnly_advanceRobot h3 m

theorem advanceRobot_self_arrival (s : State) {m : String} {r : Robot}
    (hf : s.robots.find? (fun x => x.name = m) = some r)
    (hst : r.status = RobotStatus.EXECUTING) {nxt : String}
    (hg : r.route.get? (r.routeCursor + 1) = some nxt)
    (harr : r.route.getLast? = some nxt) {k : String} {ov : Order}
    (hao : r.assignedOrder = some k) (hov : getOrder s k = some ov) :
    getRobot (advanceRobot s m) m = some (doneOf r nxt) ∧
    getOrder (advanceRobot s m) k = some (completeOrder ov) := by
  have hovk : ov.name = k := by simpa using List.find?_some hov
  constructor
  · unfold advanceRobot getRobot
    rw [hf]
    dsimp only
    rw [if_pos hst, hg]
    dsimp only
    rw [if_pos harr]
    exact find?_name_update_self s.robots m r (doneOf r nxt) hf rfl
  · unfold advanceRobot getOrder
    rw [hf]
    dsimp only
    rw [if_pos hst, hg]
    dsimp only
    rw [if_pos harr]
    show ((s.orders.map fun o =>
      if r.assignedOrder = some o.name then completeOrder o else o).find?
        (fun o => o.name = k)) = _
    have hov' : s.orders.find? (fun o => o.name = k) = some ov := hov
    rw [find?_map_keyed Order.name _ _
      (fun o => by by_cases hc : r.assignedOrder = some o.name <;>
        simp [hc, completeOrder]), hov']
    simp [hao, hovk]

theorem advanceRobot_self_moving (s : State) {m : String} {r : Robot}
    (hf : s.robots.find? (fun x => x.name = m) = some r)
    (hst : r.status = RobotStatus.EXECUTING) {nxt : String}
    (hg : r.route.get? (r.routeCursor + 1) = some nxt)
    (harr : ¬ r.route.getLast? = some nxt) :
    getRobot (advanceRobot s m) m = some (movedOf r nxt) ∧
    (advanceRobot s m).orders = s.orders := by
  constructor
  · unfold advanceRobot getRobot
    rw [hf]
    dsimp only
    rw [if_pos hst, hg]
    dsimp only
    rw [if_neg harr]
    exact find?_name_update_self s.robots m r (movedOf r nxt) hf rfl
  · unfold advanceRobot
    rw [hf]
    dsimp only
    rw [if_pos hst, hg]
    dsimp only
    rw [if_neg harr]

theorem sortedExecNames_perm (s : State) :
    List.Perm (sortedExecNames s) (execNames s) :=
  List.perm_insertionSort _ _

theorem mem_sortedExecNames {s : State} {r : Robot} (hmem : r ∈ s.robots)
    (hst : r.status = RobotStatus.EXECUTING) :
    r.name ∈ sortedExecNames s := by
  rw [(sortedExecNames_perm s).mem_iff]
  exact List.mem_map_of_mem Robot.name
    (List.mem_filter.mpr ⟨hmem, by simp [hst]⟩)

theorem sortedExecNames_nodup {s : State}
    (hnd : (s.robots.map Robot.name).Nodup) :
    (sortedExecNames s).Nodup := by
  refine (sortedExecNames_perm s).symm.nodup ?_
  exact List.Nodup.sublist
    (List.Sublist.map Robot.name (List.filter_sublist s.robots)) hnd

/-- `C5`: a robot `EXECUTING` at the start of a `tick()` advances exactly one
edge — its node becomes `route[routeCursor + 1]` and its cursor increments —
and when the new node equals the route's final node the tick additionally
marks the assigned order `DONE`, clears the robot's route, cursor and
assignment and the order's `assignedRobot`, and sets the robot `IDLE`
(`doneOf`/`completeOrder` are exactly those cleared records); robots are
processed in ascending-name order (`sortedExecNames`), which under unique
names leaves each robot's outcome as stated here.  Hypotheses are the
spec's standing state invariants: unique robot names, the assigned order
exists, and no other robot holds it. -/
theorem claim_C5 (s : State) (r : Robot) (k nxt : String) (ov : Order)
    (hnd : (s.robots.map Robot.name).Nodup)
    (hmem : r ∈ s.robots)
    (hst : r.status = RobotStatus.EXECUTING)
    (hg : r.route.get? (r.routeCursor + 1) = some nxt)
    (hao : r.assignedOrder = some k)
    (hov : getOrder s k = some ov)
    (honly : HoldsOnly s k r.name) :
    (r.route.getLast? = some nxt →
      getRobot (tick s) r.name = some (doneOf r nxt) ∧
      getOrder (tick s) k = some (completeOrder ov)) ∧
    (¬ r.route.getLast? = some nxt →
      getRobot (tick s) r.name = some (movedOf r nxt) ∧
      getOrder (tick s) k = some ov) := by
  have hfr : getRobot s r.name = some r := find?_name_of_mem_nodup hnd hmem
  have hmm : r.name ∈ sortedExecNames s := mem_sortedExecNames hmem hst
  have hnd2 : (sortedExecNames s).Nodup := sortedExecNames_nodup hnd
  obtain ⟨l1, l2, hdec⟩ := List.append_of_mem hmm
  rw [hdec] at hnd2
  have hl2 : ¬ r.name ∈ l2 :=
    (List.nodup_cons.mp (hnd2.of_append_right)).1
  have hl1 : ∀ m ∈ l1, ¬ r.name = m := fun m hm he =>
    (List.disjoint_of_nodup_append hnd2) (he ▸ hm)
      (List.mem_cons_self r.name l2)
  have hl2' : ∀ m ∈ l2, ¬ r.name = m := fun m hm he => hl2 (he ▸ hm)
  have htick : tick s =
      l2.foldl advanceRobot
        (advanceRobot (l1.foldl advanceRobot s) r.name) := by
    unfold tick
    rw [hdec, List.foldl_append, List.foldl_cons]
  obtain ⟨hA, hB, hC⟩ :=
    foldl_advanceRobot_frame l1 s r.name k r ov hl1 hfr hov honly
  have hC' : HoldsOnly (advanceRobot (l1.foldl advanceRobot s) r.name)
      k r.name := holdsOnly_advanceRobot hC r.name
  constructor
  · intro harr
    obtain ⟨hsr, hso⟩ :=
      advanceRobot_self_arrival (l1.foldl advanceRobot s) hA hst hg harr hao hB
    obtain ⟨hA2, hB2, _⟩ := foldl_advanceRobot_frame l2 _ r.name k
      (doneOf r nxt) (completeOrder ov) hl2' hsr hso hC'
    rw [htick]
    exact ⟨hA2, hB2⟩
  · intro harr
    obtain ⟨hsr, hso⟩ :=
      advanceRobot_self_moving (l1.foldl advanceRobot s) hA hst hg harr
    have hso' : getOrder (advanceRobot (l1.foldl advanceRobot s) r.name) k =
        some ov := by
      unfold getOrder
      rw [hso]
      exact hB
    obtain ⟨hA2, hB2, _⟩ := foldl_advanceRobot_frame l2 _ r.name k
      (movedOf r nxt) ov hl2' hsr hso' hC'
    rw [htick]
    exact ⟨hA2, hB2⟩

/-- Concrete instantiation of `claim_C5`: robot `R1` executing route
`[A, B, C]` with cursor `0` moves to `B` (not the final node), so after the
tick it stands at `B` with cursor `1` and its order `O1` is untouched. -/
theorem claim_C5_witness :
    (let r : Robot := ⟨"R1", .EXECUTING, "A", ["A", "B", "C"], 0, some "O1"⟩
     let ov : Order := ⟨"O1", "B", "C", .IN_PROGRESS, some "R1"⟩
     let s : State := ⟨⟨["A", "B", "C"], [⟨"A", "B", 1⟩, ⟨"B", "C", 1⟩]⟩,
       [r], [ov]⟩
     ¬ r.route.getLast? = some "B" ∧
       (getRobot (tick s) "R1" = some (movedOf r "B") ∧
        getOrder (tick s) "O1" = some ov)) := by
  refine ⟨by decide, ?_⟩
  exact (claim_C5
    ⟨⟨["A", "B", "C"], [⟨"A", "B", 1⟩, ⟨"B", "C", 1⟩]⟩,
      [⟨"R1", .EXECUTING, "A", ["A", "B", "C"], 0, some "O1"⟩],
      [⟨"O1", "B", "C", .IN_PROGRESS, some "R1"⟩]⟩
    ⟨"R1", .EXECUTING, "A", ["A", "B", "C"], 0, some "O1"⟩
    "O1" "B" ⟨"O1", "B", "C", .IN_PROGRESS, some "R1"⟩
    (by decide) (by decide) (by decide)
    (by decide) (by decide) (by decide)
    (by intro x hx hk; cases List.mem_singleton.mp hx; rfl)).2 (by decide)

/-- Modelled from the spec: `reset(seedSnapshot)` — atomically replaces the
entire live state with the seed (a single total replacement with no
partially-updated intermediate state). -/
def resetState (live seed : State) : State :=
  seed

/-- The spec's per-robot invariant: `status == EXECUTING` iff `route` is
non-empty and `assignedOrder` is set; `status == IDLE` iff both are
empty/unset. -/
def RobotOk (r : Robot) : Prop :=
  (r.status = RobotStatus.EXECUTING ↔
    (¬ r.route = [] ∧ ¬ r.assignedOrder = none)) ∧
  (r.status = RobotStatus.IDLE ↔
    (r.route = [] ∧ r.assignedOrder = none))

/-- The robot invariant over the whole state. -/
def RobotsInv (s : State) : Prop :=
  ∀ r ∈ s.robots, RobotOk r

/-- Modelled from the spec: the states reachable through the core's mutating
operations — graph load, validated robot/order creation, scheduling, tick,
and reset to a seed snapshot (seeds are well-formed snapshots, so they
satisfy the data model's robot invariant). -/
inductive Reachable : State → Prop where
  | init (g : GraphIndex) : Reachable (initState g)
  | addRobotStep {s : State} (name node : String) :
      Reachable s → Reachable (addRobot s name node)
  | addOrderStep {s : State} (name source target : String) :
      Reachable s → Reachable (addOrder s name source target)
  | assignStep {s : State} (oname : String) :
      Reachable s → Reachable (assignNearestIdleRobot s oname)
  | tickStep {s : State} : Reachable s → Reachable (tick s)
  | resetStep {s : State} (seed : State) :
      RobotsInv seed → Reachable s → Reachable (resetState s seed)

theorem robotOk_doneOf (r : Robot) (nxt : String) : RobotOk (doneOf r nxt) := by
  constructor <;> simp [doneOf]

theorem robotOk_movedOf {r : Robot} (h : RobotOk r) (nxt : String) :
    RobotOk (movedOf r nxt) := by
  simpa [RobotOk, movedOf] using h

theorem robotsInv_initState (g : GraphIndex) : RobotsInv (initState g) := by
  intro r hr
  cases hr

theorem robotsInv_addRobot {s : State} (h : RobotsInv s)
    (name node : String) : RobotsInv (addRobot s name node) := by
  unfold addRobot
  by_cases hc : (hasNode s.graph node &&
      !(s.robots.any fun r => r.name = name)) = true
  · rw [if_pos hc]
    intro r hr
    rcases List.mem_append.mp hr with hr | hr
    · exact h r hr
    · cases List.mem_singleton.mp hr
      constructor <;> simp
  · rw [if_neg hc]
    exact h

theorem robotsInv_addOrder {s : State} (h : RobotsInv s)
    (name source target : String) :
    RobotsInv (addOrder s name source target) := by
  unfold addOrder
  by_cases hc : (hasNode s.graph source && hasNode s.graph target &&
      !(s.orders.any fun o => o.name = name)) = true
  · rw [if_pos hc]
    exact h
  · rw [if_neg hc]
    exact h

theorem robotsInv_assign {s : State} (h : RobotsInv s) (oname : String) :
    RobotsInv (assignNearestIdleRobot s oname) := by
  unfold assignNearestIdleRobot
  cases ho : s.orders.find? (fun o => o.name = oname) with
  | none => exact h
  | some o =>
    dsimp only
    by_cases hnew : o.status = OrderStatus.NEW
    · rw [if_pos hnew]
      cases hb : selectRobot s o with
      | none => exact h
      | some b =>
        dsimp only
        cases hr : s.robots.find? (fun r => r.name = b.1) with
        | none => exact h
        | some r =>
          dsimp only
          cases hp1 : shortestPath s.graph r.node o.source with
          | error e => exact h
          | ok out1 =>
            cases out1 with
            | unreachable => exact h
            | found d1 p1 =>
              cases hp2 : shortestPath s.graph o.source o.target with
              | error e => exact h
              | ok out2 =>
                cases out2 with
                | unreachable => exact h
                | found d2 p2 =>
                  intro x' hx'
                  obtain ⟨x, hx, hgx⟩ := List.mem_map.mp hx'
                  by_cases hxm : x.name = b.1
                  · rw [if_pos hxm] at hgx
                    subst hgx
                    have hp1ne : ¬ p1 = [] := shortestPath_found_ne_nil hp1
                    constructor
                    · simp only [true_iff, buildRoute]
                      refine ⟨fun hemp => ?_, by simp⟩
                      rcases List.append_eq_nil.mp hemp with ⟨h1, _⟩
                      exact hp1ne h1
                    · simp [buildRoute, List.append_eq_nil, hp1ne]
                  · rw [if_neg hxm] at hgx
                    subst hgx
                    exact h x hx
    · rw [if_neg hnew]
      exact h

theorem robotsInv_advanceRobot {s : State} (h : RobotsInv s) (m : String) :
    RobotsInv (advanceRobot s m) := by
  unfold advanceRobot
  cases hf : s.robots.find? (fun r => r.name = m) with
  | none => exact h
  | some r =>
    have hrmem : r ∈ s.robots := List.mem_of_find?_eq_some hf
    dsimp only
    by_cases hst : r.status = RobotStatus.EXECUTING
    · rw [if_pos hst]
      cases hg : r.route.get? (r.routeCursor + 1) with
      | none => exact h
      | some nxt =>
        dsimp only
        have key : ∀ (R : Robot), RobotOk R →
            ∀ x' ∈ s.robots.map (fun x => if x.name = m then R else x),
              RobotOk x' := by
          intro R hR x' hx'
          obtain ⟨x, hx, hgx⟩ := List.mem_map.mp hx'
          by_cases hxm : x.name = m
          · rw [if_pos hxm] at hgx
            subst hgx
            exact hR
          · rw [if_neg hxm] at hgx
            subst hgx
            exact h x hx
        by_cases harr : r.route.getLast? = some nxt
        · rw [if_pos harr]
          exact key (doneOf r nxt) (robotOk_doneOf r nxt)
        · rw [if_neg harr]
          exact key (movedOf r nxt) (robotOk_movedOf (h r hrmem) nxt)
    · rw [if_neg hst]
      exact h

theorem robotsInv_foldl_advanceRobot (ns : List String) :
    ∀ (t : State), RobotsInv t → RobotsInv (ns.foldl advanceRobot t) := by
  induction ns with
  | nil => intro t h; exact h
  | cons m ns ih =>
    intro t h
    simp only [List.foldl_cons]
    exact ih _ (robotsInv_advanceRobot h m)

theorem robotsInv_tick {s : State} (h : RobotsInv s) : RobotsInv (tick s) :=
  robotsInv_foldl_advanceRobot (sortedExecNames s) s h

/-- `C7`: every state reachable through any sequence of `addOrder`,
`addRobot`, `assignNearestIdleRobot`, `tick` and `reset` operations
satisfies the robot invariant — a robot is `EXECUTING` iff its route is
non-empty and its assigned order is set, and `IDLE` iff its route is empty
and its assigned order is unset. -/
theorem claim_C7 (s : State) (h : Reachable s) : RobotsInv s := by
  induction h with
  | init g => exact robotsInv_initState g
  | addRobotStep name node _ ih => exact robotsInv_addRobot ih name node
  | addOrderStep name source target _ ih =>
    exact robotsInv_addOrder ih name source target
  | assignStep oname _ ih => exact robotsInv_assign ih oname
  | tickStep _ ih => exact robotsInv_tick ih
  | resetStep seed hseed _ _ => exact hseed

/-- Concrete instantiation of `claim_C7`: the robot invariant holds after
loading a graph, adding a robot and an order, scheduling, and one tick. -/
theorem claim_C7_witness :
    RobotsInv (tick (assignNearestIdleRobot
      (addOrder (addRobot
        (initState ⟨["A", "B"], [⟨"A", "B", 1⟩]⟩) "R1" "A") "O1" "A" "B")
      "O1")) :=
  claim_C7 _ (.tickStep (.assignStep "O1"
    (.addOrderStep "O1" "A" "B" (.addRobotStep "R1" "A"
      (.init ⟨["A", "B"], [⟨"A", "B", 1⟩]⟩)))))

/-- A flat storage value for the StateStore boundary (the spec leaves the
on-disk layout to the implementer; this is one concrete backing layout). -/
inductive Blob where
  | str (s : String)
  | num (q : ℚ)
  | nat (n : ℕ)
  | list (l : List Blob)

/-- Fail-fast traversal of a list under a partial decoder. -/
def mapMO {α β : Type} (f : α → Option β) : List α → Option (List β)
  | [] => some []
  | a :: as =>
    match f a, mapMO f as with
    | some b, some bs => some (b :: bs)
    | _, _ => none

/-- Robot status on the wire / in storage. -/
def encodeStatusR : RobotStatus → String
  | .IDLE => "IDLE"
  | .EXECUTING => "EXECUTING"

def decodeStatusR (s : String) : Option RobotStatus :=
  if s = "IDLE" then some .IDLE
  else if s = "EXECUTING" then some .EXECUTING
  else none

/-- Order status on the wire / in storage. -/
def encodeStatusO : OrderStatus → String
  | .NEW => "NEW"
  | .IN_PROGRESS => "IN_PROGRESS"
  | .DONE => "DONE"
  | .FAILED => "FAILED"

def decodeStatusO (s : String) : Option OrderStatus :=
  if s = "NEW" then some .NEW
  else if s = "IN_PROGRESS" then some .IN_PROGRESS
  else if s = "DONE" then some .DONE
  else if s = "FAILED" then some .FAILED
  else none

def encodeOptStr : Option String → Blob
  | none => .list []
  | some x => .list [.str x]

def decodeOptStr : Blob → Option (Option String)
  | .list [] => some none
  | .list [.str x] => some (some x)
  | _ => none

def decodeStr : Blob → Option String
  | .str s => some s
  | _ => none

def encodeStrList (l : List String) : Blob :=
  .list (l.map .str)

def decodeStrList : Blob → Option (List String)
  | .list l => mapMO decodeStr l
  | _ => none

def encodeRobot (r : Robot) : Blob :=
  .list [.str r.name, .str (encodeStatusR r.status), .str r.node,
    encodeStrList r.route, .nat r.routeCursor, encodeOptStr r.assignedOrder]

def decodeRobot : Blob → Option Robot
  | .list [.str name, .str st, .str node, routeB, .nat cur, aoB] =>
    match decodeStatusR st, decodeStrList routeB, decodeOptStr aoB with
    | some status, some route, some ao =>
      some ⟨name, status, node, route, cur, ao⟩
    | _, _, _ => none
  | _ => none

def encodeOrder (o : Order) : Blob :=
  .list [.str o.name, .str o.source, .str o.target,
    .str (encodeStatusO o.status), encodeOptStr o.assignedRobot]

def decodeOrder : Blob → Option Order
  | .list [.str name, .str source, .str target, .str st, arB] =>
    match decodeStatusO st, decodeOptStr arB with
    | some status, some ar => some ⟨name, source, target, status, ar⟩
    | _, _ => none
  | _ => none

def encodeEdge (e : GEdge) : Blob :=
  .list [.str e.fromNode, .str e.toNode, .num e.weight]

def decodeEdge : Blob → Option GEdge
  | .list [.str a, .str b, .num w] => some ⟨a, b, w⟩
  | _ => none

def encodeGraph (g : GraphIndex) : Blob :=
  .list [encodeStrList g.nodes, .list (g.edges.map encodeEdge)]

def decodeGraph : Blob → Option GraphIndex
  | .list [nodesB, .list edgesB] =>
    match decodeStrList nodesB, mapMO decodeEdge edgesB with
    | some ns, some es => some ⟨ns, es⟩
    | _, _ => none
  | _ => none

/-- Modelled from the spec: `save(Snapshot)` — serialize the full
`{graph, robots, orders}` snapshot into the backing store's value. -/
def save (snap : State) : Blob :=
  .list [encodeGraph snap.graph, .list (snap.robots.map encodeRobot),
    .list (snap.orders.map encodeOrder)]

/-- Modelled from the spec: `load() -> Snapshot` — deserialize a stored
value back into a snapshot. -/
def load : Blob → Option State
  | .list [gB, .list rB, .list oB] =>
    match decodeGraph gB, mapMO decodeRobot rB, mapMO decodeOrder oB with
    | some g, some rs, some os => some ⟨g, rs, os⟩
    | _, _, _ => none
  | _ => none

theorem mapMO_map_encode {α β : Type} (enc : α → β) (dec : β → Option α)
    (h : ∀ a, dec (enc a) = some a) (l : List α) :
    mapMO dec (l.map enc) = some l := by
  induction l with
  | nil => rfl
  | cons a t ih => simp [mapMO, h a, ih]

theorem decodeStrList_encode (l : List String) :
    decodeStrList (encodeStrList l) = some l :=
  mapMO_map_encode Blob.str decodeStr (fun a => rfl) l

theorem decodeStatusR_encode (st : RobotStatus) :
    decodeStatusR (encodeStatusR st) = some st := by
  cases st <;> rfl

theorem decodeStatusO_encode (st : OrderStatus) :
    decodeStatusO (encodeStatusO st) = some st := by
  cases st <;> rfl

theorem decodeOptStr_encode (o : Option String) :
    decodeOptStr (encodeOptStr o) = some o := by
  cases o <;> rfl

theorem decodeRobot_encode (r : Robot) :
    decodeRobot (encodeRobot r) = some r := by
  rcases r with ⟨name, st, node, route, cur, ao⟩
  simp [encodeRobot, decodeRobot, decodeStatusR_encode, decodeStrList_encode,
    decodeOptStr_encode]

theorem decodeOrder_encode (o : Order) :
    decodeOrder (encodeOrder o) = some o := by
  rcases o with ⟨name, source, target, st, ar⟩
  simp [encodeOrder, decodeOrder, decodeStatusO_encode, decodeOptStr_encode]

theorem decodeEdge_encode (e : GEdge) :
    decodeEdge (encodeEdge e) = some e := by
  rcases e with ⟨a, b, w⟩
  rfl

theorem decodeGraph_encode (g : GraphIndex) :
    decodeGraph (encodeGraph g) = some g := by
  rcases g with ⟨ns, es⟩
  simp [encodeGraph, decodeGraph, decodeStrList_encode,
    mapMO_map_encode encodeEdge decodeEdge decodeEdge_encode]

/-- `C6`: `load(save(snapshot))` reproduces the snapshot field-for-field,
and `reset(seed)` replaces the entire live state with the seed in one total
replacement. -/
theorem claim_C6 :
    (∀ snap : State, load (save snap) = some snap) ∧
    (∀ live seed : State, resetState live seed = seed) := by
  constructor
  · intro snap
    rcases snap with ⟨g, rs, os⟩
    simp [save, load, decodeGraph_encode,
      mapMO_map_encode encodeRobot decodeRobot decodeRobot_encode,
      mapMO_map_encode encodeOrder decodeOrder decodeOrder_encode]
  · intro live seed
    rfl

/-- A JSON value, the wire representation exchanged with the client. -/
inductive Json where
  | str (s : String)
  | num (q : ℚ)
  | arr (l : List Json)
  | obj (fields : List (String × Json))

/-- Modelled from the spec: the wire shape of one robot,
`{name, status, node}` with the status enum rendered as its string. -/
def robotJson (r : Robot) : Json :=
  .obj [("name", .str r.name), ("status", .str (encodeStatusR r.status)),
    ("node", .str r.node)]

/-- Modelled from the spec: the wire shape of one order,
`{name, source, target, status}`. -/
def orderJson (o : Order) : Json :=
  .obj [("name", .str o.name), ("source", .str o.source),
    ("target", .str o.target), ("status", .str (encodeStatusO o.status))]

/-- Modelled from the spec: the wire shape of one edge, `{from, to, weight}`. -/
def edgeJson (e : GEdge) : Json :=
  .obj [("from", .str e.fromNode), ("to", .str e.toNode),
    ("weight", .num e.weight)]

/-- Modelled from the spec: `getGraph() -> {nodes: [string], edges: [...]}` —
the graph wire value, returned unwrapped. -/
def getGraphJson (s : State) : Json :=
  .obj [("nodes", .arr (s.graph.nodes.map .str)),
    ("edges", .arr (s.graph.edges.map edgeJson))]

/-- Modelled from the spec: `getRobots() -> {robots: [...]}`. -/
def getRobotsJson (s : State) : Json :=
  .obj [("robots", .arr (s.robots.map robotJson))]

/-- Modelled from the spec: `getOrders() -> {orders: [...]}`. -/
def getOrdersJson (s : State) : Json :=
  .obj [("orders", .arr (s.orders.map orderJson))]

/-- The client's `Robot` type (from `App.tsx`):
`{ name: string; status: "IDLE" | "EXECUTING"; node: string }`. -/
def ClientRobotTy (j : Json) : Prop :=
  ∃ n st nd, j = .obj [("name", .str n), ("status", .str st),
    ("node", .str nd)] ∧ (st = "IDLE" ∨ st = "EXECUTING")

/-- The client's `Order` type (from `App.tsx`): `{ name; source; target;
status: "NEW" | "IN_PROGRESS" | "DONE" | "FAILED" }`. -/
def ClientOrderTy (j : Json) : Prop :=
  ∃ n src tgt st, j = .obj [("name", .str n), ("source", .str src),
    ("target", .str tgt), ("status", .str st)] ∧
    (st = "NEW" ∨ st = "IN_PROGRESS" ∨ st = "DONE" ∨ st = "FAILED")

/-- The client's edge shape (from `App.tsx`):
`{ from: string; to: string; weight: number }`. -/
def ClientEdgeTy (j : Json) : Prop :=
  ∃ f t w, j = .obj [("from", .str f), ("to", .str t), ("weight", .num w)]

/-- The client's `Graph` type (from `App.tsx`):
`{ nodes: string[]; edges: {from, to, weight}[] }`. -/
def ClientGraphTy (j : Json) : Prop :=
  ∃ (nodes : List String) (edges : List Json),
    j = .obj [("nodes", .arr (nodes.map .str)),
      ("edges", .arr edges)] ∧ ∀ e ∈ edges, ClientEdgeTy e

/-- The client's `getRobots` response shape (from `App.tsx`):
`{ robots: Robot[] }`. -/
def ClientRobotsRespTy (j : Json) : Prop :=
  ∃ robots, j = .obj [("robots", .arr robots)] ∧
    ∀ x ∈ robots, ClientRobotTy x

/-- The client's `getOrders` response shape (from `App.tsx`):
`{ orders: Order[] }`. -/
def ClientOrdersRespTy (j : Json) : Prop :=
  ∃ orders, j = .obj [("orders", .arr orders)] ∧
    ∀ x ∈ orders, ClientOrderTy x

/-- `C1`: every value produced by the core's read operations inhabits the
corresponding client-side type of `App.tsx` — `getGraph` produces the
client's `Graph` shape, and `getRobots`/`getOrders` wrap lists of values of
the client's `Robot`/`Order` shapes (status strings drawn from the client's
enumerations) as `{robots: [...]}` / `{orders: [...]}`. -/
theorem claim_C1 (s : State) :
    ClientGraphTy (getGraphJson s) ∧
    ClientRobotsRespTy (getRobotsJson s) ∧
    ClientOrdersRespTy (getOrdersJson s) := by
  refine ⟨?_, ?_, ?_⟩
  · refine ⟨s.graph.nodes, s.graph.edges.map edgeJson, rfl, ?_⟩
    intro e he
    obtain ⟨x, _, hx⟩ := List.mem_map.mp he
    exact ⟨x.fromNode, x.toNode, x.weight, hx.symm ▸ rfl⟩
  · refine ⟨s.robots.map robotJson, rfl, ?_⟩
    intro x hx
    obtain ⟨r, _, hr⟩ := List.mem_map.mp hx
    refine ⟨r.name, encodeStatusR r.status, r.node, hr.symm ▸ rfl, ?_⟩
    cases r.status
    · exact Or.inl rfl
    · exact Or.inr rfl
  · refine ⟨s.orders.map orderJson, rfl, ?_⟩
    intro x hx
    obtain ⟨o, _, ho⟩ := List.mem_map.mp hx
    refine ⟨o.name, o.source, o.target, encodeStatusO o.status,
      ho.symm ▸ rfl, ?_⟩
    cases o.status
    · exact Or.inl rfl
    · exact Or.inr (Or.inl rfl)
    · exact Or.inr (Or.inr (Or.inl rfl))
    · exact Or.inr (Or.inr (Or.inr rfl))

/-- The core operations exposed to the transport layer (spec section on
external interfaces). -/
inductive Op where
  | getGraphOp
  | getRobotsOp
  | getOrdersOp
  | addOrderOp (name source target : String)
  | addRobotOp (name node : String)
  | assignOp (oname : String)
  | tickOp
  | resetOp (seed : State)

/-- Whether an operation is one of the three read endpoints. -/
def isRead : Op → Bool
  | .getGraphOp => true
  | .getRobotsOp => true
  | .getOrdersOp => true
  | _ => false

/-- Modelled from the spec: the state after an operation.  Reads are pure
snapshot projections and perform no mutation (they never trigger scheduling
or any state change); the mutating operations apply their embedded
transition. -/
def execState : Op → State → State
  | .getGraphOp, s => s
  | .getRobotsOp, s => s
  | .getOrdersOp, s => s
  | .addOrderOp name source target, s => addOrder s name source target
  | .addRobotOp name node, s => addRobot s name node
  | .assignOp oname, s => assignNearestIdleRobot s oname
  | .tickOp, s => tick s
  | .resetOp seed, s => resetState s seed

/-- The wire value returned by a read operation (`none` for mutators). -/
def readResult : Op → State → Option Json
  | .getGraphOp, s => some (getGraphJson s)
  | .getRobotsOp, s => some (getRobotsJson s)
  | .getOrdersOp, s => some (getOrdersJson s)
  | _, _ => none

/-- The request options the client passes to `fetch` (from `App.tsx`): only
the method matters here; `fetch` without a method defaults to `GET`. -/
structure FetchInit where
  method : Option String

/-- The HTTP method of an `api(path, init)` call in `App.tsx`: the spread
`init`'s method when given, else the `fetch` default `GET`. -/
def apiMethod : Option FetchInit → String
  | none => "GET"
  | some i => i.method.getD "GET"

/-- Client call `api("/getGraph")` (from `App.tsx`). -/
def callGetGraph : String × Option FetchInit :=
  ("/getGraph", none)

/-- Client call `api("/getRobots")` (from `App.tsx`). -/
def callGetRobots : String × Option FetchInit :=
  ("/getRobots", none)

/-- Client call `api("/getOrders")` (from `App.tsx`). -/
def callGetOrders : String × Option FetchInit :=
  ("/getOrders", none)

/-- Client call `api("/addOrder", { method: "POST", body: ... })` (from
`App.tsx`). -/
def callAddOrder : String × Option FetchInit :=
  ("/addOrder", some ⟨some "POST"⟩)

/-- Client call `api("/tick", { method: "POST" })` (from `App.tsx`). -/
def callTick : String × Option FetchInit :=
  ("/tick", some ⟨some "POST"⟩)

/-- `C2`: the read operations are side-effect-free projections — they leave
the state unchanged (no scheduling or mutation), so two consecutive reads
with no interleaved mutating operation return equal results; and the client
issues the three reads as plain `GET` requests while `/addOrder` and
`/tick` are `POST`. -/
theorem claim_C2 :
    (∀ (op : Op) (s : State), isRead op = true → execState op s = s) ∧
    (∀ (op r : Op) (s : State), isRead op = true →
      readResult r (execState op s) = readResult r s) ∧
    apiMethod callGetGraph.2 = "GET" ∧
    apiMethod callGetRobots.2 = "GET" ∧
    apiMethod callGetOrders.2 = "GET" ∧
    apiMethod callAddOrder.2 = "POST" ∧
    apiMethod callTick.2 = "POST" := by
  have hexec : ∀ (op : Op) (s : State), isRead op = true → execState op s = s := by
    intro op s h
    cases op <;> first | rfl | exact absurd h (by simp [isRead])
  refine ⟨hexec, ?_, rfl, rfl, rfl, rfl, rfl⟩
  intro op r s h
  rw [hexec op s h]

/-- Concrete instantiation of `claim_C2`: reading robots leaves a concrete
state unchanged, and a `getGraph` read after a `getOrders` read returns the
same value as before it. -/
theorem claim_C2_witness :
    (execState .getRobotsOp (initState ⟨["A"], []⟩) = initState ⟨["A"], []⟩) ∧
    (readResult .getGraphOp (execState .getOrdersOp (initState ⟨["A"], []⟩)) =
      readResult .getGraphOp (initState ⟨["A"], []⟩)) :=
  ⟨claim_C2.1 .getRobotsOp (initState ⟨["A"], []⟩) rfl,
   claim_C2.2.1 .getOrdersOp .getGraphOp (initState ⟨["A"], []⟩) rfl⟩

/-- A 2D position (`{x, y}` in `App.tsx`), over the mathematical reals. -/
structure Pt where
  x : ℝ
  y : ℝ

/-- The body of `circularLayout`'s `nodes.forEach((n, i) => pos.set(n, ...))`
(from `App.tsx`), carried out from index `i`: radius `min(width, height) *
0.35`, center `(width/2, height/2)`, angular step `2π / max(len, 1)` where
`len` is the full list's length, angle `i * step - π/2`. -/
noncomputable def layoutAux (w h : ℝ) (len : ℕ) :
    ℕ → List String → List (String × Pt)
  | _, [] => []
  | i, n :: rest =>
    (n, ⟨w / 2 + (min w h * 0.35) *
          Real.cos ((i : ℝ) * ((2 * Real.pi) / ((max len 1 : ℕ) : ℝ)) -
            Real.pi / 2),
        h / 2 + (min w h * 0.35) *
          Real.sin ((i : ℝ) * ((2 * Real.pi) / ((max len 1 : ℕ) : ℝ)) -
            Real.pi / 2)⟩) ::
      layoutAux w h len (i + 1) rest

/-- `circularLayout(nodes, width, height)` from `App.tsx`: place the nodes
on a circle, one map entry per node, built by iterating `pos.set`. -/
noncomputable def circularLayout (nodes : List String) (w h : ℝ) :
    List (String × Pt) :=
  layoutAux w h nodes.length 0 nodes

/-- Map lookup with JavaScript `Map.set` overwrite semantics: the last entry
set for a key wins. -/
def posGet (m : List (String × Pt)) (k : String) : Option Pt :=
  (m.reverse.find? fun e => e.1 = k).map fun e => e.2

/-- Lying on the layout circle of `App.tsx`: radius `min(width, height) *
0.35` around the center `(width/2, height/2)`. -/
def OnCircle (w h : ℝ) (p : Pt) : Prop :=
  (p.x - w / 2) ^ 2 + (p.y - h / 2) ^ 2 = (min w h * 0.35) ^ 2

theorem point_onCircle (w h θ : ℝ) :
    OnCircle w h ⟨w / 2 + (min w h * 0.35) * Real.cos θ,
      h / 2 + (min w h * 0.35) * Real.sin θ⟩ := by
  unfold OnCircle
  dsimp only
  linear_combination (min w h * 0.35) ^ 2 * Real.sin_sq_add_cos_sq θ

theorem layoutAux_keys (w h : ℝ) (len : ℕ) :
    ∀ (i : ℕ) (ns : List String),
      (layoutAux w h len i ns).map Prod.fst = ns := by
  intro i ns
  induction ns generalizing i with
  | nil => rfl
  | cons n rest ih => simp [layoutAux, ih]

theorem layoutAux_onCircle (w h : ℝ) (len : ℕ) :
    ∀ (i : ℕ) (ns : List String) (e : String × Pt),
      e ∈ layoutAux w h len i ns → OnCircle w h e.2 := by
  intro i ns
  induction ns generalizing i with
  | nil => intro e he; cases he
  | cons n rest ih =>
    intro e he
    rcases List.mem_cons.mp he with he | he
    · subst he
      exact point_onCircle w h _
    · exact ih (i + 1) e he

theorem find?_fst_of_mem {l : List (String × Pt)} {n : String}
    (h : n ∈ l.map Prod.fst) :
    ∃ e, l.find? (fun e => e.1 = n) = some e := by
  induction l with
  | nil => cases h
  | cons a t ih =>
    by_cases ha : a.1 = n
    · exact ⟨a, List.find?_cons_of_pos _ (by simp [ha])⟩
    · rcases List.mem_cons.mp h with h | h
      · exact absurd h.symm ha
      · obtain ⟨e, he⟩ := ih h
        exact ⟨e, by rw [List.find?_cons_of_neg _ (by simp [ha])]; exact he⟩

/-- `C8`: `circularLayout` is total — for every node list (the empty list
included) and positive width and height it returns a map with exactly one
position per listed node; its angular-step divisor `max(length, 1)` is
nonzero, the empty list yields the empty map, and every returned position
lies on the circle of radius `min(width, height) * 0.35` centered at
`(width/2, height/2)`. -/
theorem claim_C8 (nodes : List String) (w h : ℝ) (hw : 0 < w) (hh : 0 < h) :
    ((0 : ℝ) < ((max nodes.length 1 : ℕ) : ℝ)) ∧
    (nodes = [] → circularLayout nodes w h = []) ∧
    (∀ n ∈ nodes, ∃ p, posGet (circularLayout nodes w h) n = some p) ∧
    (∀ e ∈ circularLayout nodes w h, OnCircle w h e.2) := by
  refine ⟨?_, ?_, ?_, ?_⟩
  · have : 0 < max nodes.length 1 := lt_max_of_lt_right Nat.one_pos
    exact_mod_cast this
  · intro hnil
    subst hnil
    rfl
  · intro n hn
    have hkeys : n ∈ (circularLayout nodes w h).map Prod.fst := by
      rw [circularLayout, layoutAux_keys]
      exact hn
    have hrev : n ∈ (circularLayout nodes w h).reverse.map Prod.fst := by
      rw [List.map_reverse, List.mem_reverse]
      exact hkeys
    obtain ⟨e, he⟩ := find?_fst_of_mem hrev
    exact ⟨e.2, by rw [posGet, he]; rfl⟩
  · intro e he
    exact layoutAux_onCircle w h nodes.length 0 nodes e he

/-- Concrete instantiation of `claim_C8` at the client's actual canvas size
`720 × 420` and a singleton node list. -/
theorem claim_C8_witness :
    (0 : ℝ) < 720 ∧ (0 : ℝ) < 420 ∧
    (((0 : ℝ) < ((max (["A"] : List String).length 1 : ℕ) : ℝ)) ∧
      ((["A"] : List String) = [] → circularLayout ["A"] 720 420 = []) ∧
      (∀ n ∈ (["A"] : List String), ∃ p,
        posGet (circularLayout ["A"] 720 420) n = some p) ∧
      (∀ e ∈ circularLayout ["A"] 720 420, OnCircle 720 420 e.2)) :=
  ⟨by norm_num, by norm_num,
    claim_C8 ["A"] 720 420 (by norm_num) (by norm_num)⟩

/-- The state held by the `usePoll` hook of `App.tsx` after an attempt:
the `data` and `error` React state plus whether the `finally` block
scheduled the next attempt. -/
structure PollState (T : Type) where
  data : Option T
  error : Option String
  timerScheduled : Bool

/-- One attempt of `usePoll`'s `tick` from `App.tsx`: on a resolved fetch
set `data`; on a throw set `error` (keeping `data`); in `finally` schedule
the next attempt after `intervalMs` — each step guarded by the effect's
`cancelled` flag. -/
def pollStep {T : Type} (st : PollState T) (cancelled : Bool)
    (outcome : Except String T) : PollState T :=
  match outcome with
  | .ok v =>
    { data := if cancelled then st.data else some v
      error := st.error
      timerScheduled := !cancelled }
  | .error e =>
    { data := st.data
      error := if cancelled then st.error else some e
      timerScheduled := !cancelled }

/-- `C9`: the polling loop never stops on a fetch failure — after every
attempt, resolved or thrown, the next attempt is scheduled iff the effect
has not been cancelled; a successful fetch updates `data`, and an error
only updates the error state while the previously fetched `data` is
retained (the client degrades to stale data instead of halting). -/
theorem claim_C9 {T : Type} (st : PollState T) :
    (∀ (cancelled : Bool) (outcome : Except String T),
      (pollStep st cancelled outcome).timerScheduled = !cancelled) ∧
    (∀ v : T, (pollStep st false (.ok v)).data = some v) ∧
    (∀ e : String, (pollStep st false (.error e)).data = st.data ∧
      (pollStep st false (.error e)).error = some e) := by
  refine ⟨?_, ?_, ?_⟩
  · intro cancelled outcome
    cases outcome <;> rfl
  · intro v
    rfl
  · intro e
    exact ⟨rfl, rfl⟩

/-- The Add Order form state of `App.tsx`: `{name, source, target}`. -/
structure FormState where
  name : String
  source : String
  target : String
deriving DecidableEq

/-- What one `submitOrder` run produces: whether the `POST` was issued, the
`submitErr` message, and the form state afterwards. -/
structure SubmitOutcome where
  posted : Bool
  submitErr : Option String
  form : FormState
deriving DecidableEq

/-- `submitOrder` from `App.tsx` as a function of the form fields and (when
a request is made) the server outcome: empty fields short-circuit with
"Please fill all fields" and no request; a successful request clears the
form; a failed request keeps the form and shows `err.message` (JavaScript's
`||` falls back to "Failed to add order" when the message is empty). -/
def submitOrder (f : FormState) (server : Except String Unit) :
    SubmitOutcome :=
  if f.name = "" ∨ f.source = "" ∨ f.target = "" then
    { posted := false, submitErr := some "Please fill all fields", form := f }
  else
    match server with
    | .ok _ => { posted := true, submitErr := none, form := ⟨"", "", ""⟩ }
    | .error m =>
      { posted := true
        submitErr := some (if m = "" then "Failed to add order" else m)
        form := f }

/-- `C10`: `submitOrder` issues the `POST` only when name, source and target
are all non-empty; with any field empty it sets "Please fill all fields"
and performs no request; only a successful request resets the three fields
to empty strings, while a failed request keeps the entered values and shows
the server's error message. -/
theorem claim_C10 (f : FormState) (server : Except String Unit) :
    ((f.name = "" ∨ f.source = "" ∨ f.target = "") →
      submitOrder f server =
        ⟨false, some "Please fill all fields", f⟩) ∧
    (¬ (f.name = "" ∨ f.source = "" ∨ f.target = "") →
      server = .ok () →
      submitOrder f server = ⟨true, none, ⟨"", "", ""⟩⟩) ∧
    (¬ (f.name = "" ∨ f.source = "" ∨ f.target = "") →
      ∀ m : String, server = .error m →
        submitOrder f server =
          ⟨true, some (if m = "" then "Failed to add order" else m), f⟩) := by
  refine ⟨?_, ?_, ?_⟩
  · intro hemp
    unfold submitOrder
    rw [if_pos hemp]
  · intro hemp hok
    subst hok
    unfold submitOrder
    rw [if_neg hemp]
  · intro hemp m herr
    subst herr
    unfold submitOrder
    rw [if_neg hemp]

/-- Concrete instantiation of `claim_C10`: an empty name blocks the request,
and a filled form with a successful request clears the fields. -/
theorem claim_C10_witness :
    (submitOrder ⟨"", "A", "B"⟩ (.ok ()) =
      ⟨false, some "Please fill all fields", ⟨"", "A", "B"⟩⟩) ∧
    (submitOrder ⟨"O1", "A", "B"⟩ (.ok ()) = ⟨true, none, ⟨"", "", ""⟩⟩) :=
  ⟨(claim_C10 ⟨"", "A", "B"⟩ (.ok ())).1 (Or.inl rfl),
   (claim_C10 ⟨"O1", "A", "B"⟩ (.ok ())).2.1 (by decide) rfl⟩

end AGV
